import Mathlib

/-!
A verification development for a Go SPSC ring buffer package.

Modelling notes.

* Go byte values are modelled as `Nat`; the byte slices `[]byte` as `List Nat`.
* The two position counters are `uint64` in Go.  They are modelled as
  unbounded `Nat`: all theorems below carry (or preserve) the invariant
  `readPos ≤ writePos ∧ writePos - readPos ≤ size`, under which every
  subtraction that Go performs with wrap-around `uint64` arithmetic has a
  result below `2 ^ 64` that coincides with truncated `Nat` subtraction,
  and `pos & mask = pos % size` holds in both readings because the
  power-of-two `size` divides `2 ^ 64`.  The one place where `uint64`
  overflow is observable for in-range inputs — the final increment of
  `nextPowerOf2` — keeps its explicit `% 2 ^ 64`.
* Go's `copy(dst, src)` truncates at the length of either side; the helper
  `copyInto` (writing into the storage list) and `copyOut` (the bytes a
  caller receives) make that truncation explicit.
* Methods that mutate the receiver return the updated structure; methods
  that only load state return the receiver unchanged together with their
  result, so absence of mutation is a stated fact rather than an artifact.
-/

/-- Errors of the ring buffer package: `ErrInsufficientSpace` and
`ErrInsufficientData`. -/
inductive RBError where
  | insufficientSpace
  | insufficientData
deriving DecidableEq

/-- Bytes written into `dst` by Go `copy(dst[start:...], src)`: each byte of
`src` lands at `start`, `start+1`, …; writes past the end of `dst` are
dropped, as `List.set` ignores out-of-range indices. -/
def copyInto (dst : List Nat) (start : Nat) : List Nat → List Nat
  | [] => dst
  | b :: rest => copyInto (dst.set start b) (start + 1) rest

/-- Bytes a caller receives from Go `copy(dst, src)` when `dst` has length
`dstLen`: the first `min dstLen src.length` bytes of `src`. -/
def copyOut (dstLen : Nat) (src : List Nat) : List Nat :=
  src.take dstLen

/-- The `RingBuffer` struct of `ringbuffer.go` (lock-free SPSC core). -/
structure RingBuffer where
  buffer : List Nat
  size : Nat
  mask : Nat
  writePos : Nat
  readPos : Nat
deriving DecidableEq

/-- The `nextPowerOf2` function of `ringbuffer.go`.  The trailing increment
is the one spot where `uint64` overflow is observable (an argument above
`2 ^ 63` smears to `2 ^ 64 - 1` and the increment wraps to `0`), hence the
explicit `% 2 ^ 64`. -/
def nextPowerOf2 (n : Nat) : Nat :=
  if n = 0 then 1
  else
    let m := n - 1
    let m := m ||| (m >>> 1)
    let m := m ||| (m >>> 2)
    let m := m ||| (m >>> 4)
    let m := m ||| (m >>> 8)
    let m := m ||| (m >>> 16)
    let m := m ||| (m >>> 32)
    (m + 1) % 2 ^ 64

namespace RingBuffer

/-- The `New` constructor of `ringbuffer.go`. -/
def New (size : Nat) : RingBuffer :=
  let size := nextPowerOf2 size
  { buffer := List.replicate size 0
    size := size
    mask := size - 1
    writePos := 0
    readPos := 0 }

/-- `AvailableWrite` of `ringbuffer.go`. -/
def AvailableWrite (rb : RingBuffer) : Nat :=
  rb.size - (rb.writePos - rb.readPos)

/-- `AvailableRead` of `ringbuffer.go`. -/
def AvailableRead (rb : RingBuffer) : Nat :=
  rb.writePos - rb.readPos

/-- `Size` of `ringbuffer.go`. -/
def Size (rb : RingBuffer) : Nat :=
  rb.size

/-- `Write` of `ringbuffer.go`; the Go `(int, error)` return together with
the mutated receiver. -/
def Write (rb : RingBuffer) (data : List Nat) : RingBuffer × Nat × Option RBError :=
  let dataLen := data.length
  if dataLen = 0 then (rb, 0, none)
  else
    let available := rb.AvailableWrite
    if dataLen > available then (rb, 0, some .insufficientSpace)
    else
      let writePos := rb.writePos
      let start := writePos &&& rb.mask
      let stop := (writePos + dataLen) &&& rb.mask
      let buffer :=
        if stop > start then
          copyInto rb.buffer start data
        else
          let firstChunk := rb.size - start
          copyInto (copyInto rb.buffer start (data.take firstChunk)) 0
            (data.drop firstChunk)
      ({ rb with buffer := buffer, writePos := writePos + dataLen }, dataLen, none)

/-- `Read` of `ringbuffer.go`.  The caller's destination is modelled by its
length `dataLen`; the returned list is the bytes the two Go `copy` calls
place into it (the untouched tail of the destination is the caller's). -/
def Read (rb : RingBuffer) (dataLen : Nat) :
    RingBuffer × List Nat × Nat × Option RBError :=
  if dataLen = 0 then (rb, [], 0, none)
  else
    let available := rb.AvailableRead
    if available = 0 then (rb, [], 0, some .insufficientData)
    else
      let toRead := min dataLen available
      let readPos := rb.readPos
      let start := readPos &&& rb.mask
      let stop := (readPos + toRead) &&& rb.mask
      let bytes :=
        if stop > start then
          copyOut toRead ((rb.buffer.drop start).take (stop - start))
        else
          let firstChunk := rb.size - start
          copyOut firstChunk (rb.buffer.drop start) ++
            copyOut (toRead - firstChunk) (rb.buffer.take stop)
      ({ rb with readPos := readPos + toRead }, bytes, toRead, none)

/-- `ReadSlices` of `ringbuffer.go`.  `none` models a `nil` Go slice, and
`some l` a non-nil slice with contents `l` (Go distinguishes a nil slice
from a non-nil empty one). -/
def ReadSlices (rb : RingBuffer) :
    RingBuffer × Option (List Nat) × Option (List Nat) × Nat :=
  let available := rb.AvailableRead
  if available = 0 then (rb, none, none, 0)
  else
    let readPos := rb.readPos
    let start := readPos &&& rb.mask
    let stop := (readPos + available) &&& rb.mask
    if stop > start then
      (rb, some ((rb.buffer.drop start).take (stop - start)), none, available)
    else
      (rb, some (rb.buffer.drop start), some (rb.buffer.take stop), available)

/-- `PeekContiguous` of `ringbuffer.go`, with the same `nil`-vs-non-nil
convention as `ReadSlices`. -/
def PeekContiguous (rb : RingBuffer) : RingBuffer × Option (List Nat) :=
  let available := rb.AvailableRead
  if available = 0 then (rb, none)
  else
    let readPos := rb.readPos
    let start := readPos &&& rb.mask
    let stop := (readPos + available) &&& rb.mask
    if stop > start then
      (rb, some ((rb.buffer.drop start).take (stop - start)))
    else
      (rb, some (rb.buffer.drop start))

/-- `Consume` of `ringbuffer.go`. -/
def Consume (rb : RingBuffer) (n : Nat) : RingBuffer × Option RBError :=
  if n = 0 then (rb, none)
  else
    let available := rb.AvailableRead
    if n > available then (rb, some .insufficientData)
    else ({ rb with readPos := rb.readPos + n }, none)

/-- `Reset` of `ringbuffer.go`. -/
def Reset (rb : RingBuffer) : RingBuffer :=
  { rb with readPos := 0, writePos := 0 }

/-- Abstraction: the unread bytes of the buffer in FIFO order, i.e. the
storage bytes at indices `(readPos + k) % size` for
`k < writePos - readPos`. -/
def unread (rb : RingBuffer) : List Nat :=
  (List.range (rb.writePos - rb.readPos)).map
    (fun k => rb.buffer.getD ((rb.readPos + k) % rb.size) 0)

/-- Well-formedness of a `RingBuffer` state: what `New` establishes and
every operation preserves. -/
structure Wf (rb : RingBuffer) : Prop where
  size_eq : ∃ k, rb.size = 2 ^ k
  mask_eq : rb.mask = rb.size - 1
  len_eq : rb.buffer.length = rb.size
  le : rb.readPos ≤ rb.writePos
  occ : rb.writePos - rb.readPos ≤ rb.size

/-- The cursor-occupancy invariant by itself. -/
def CursorInv (rb : RingBuffer) : Prop :=
  rb.readPos ≤ rb.writePos ∧ rb.writePos - rb.readPos ≤ rb.size

instance (rb : RingBuffer) : Decidable (CursorInv rb) := by
  unfold CursorInv; infer_instance

end RingBuffer

/-- Errors of the single-threaded variant (`fmt.Errorf` values). -/
inductive STError where
  | negativeCount
  | dstTooSmall
  | insufficientData
  | insufficientSpace
deriving DecidableEq

/-- The single-threaded `RingBuffer` struct (source file of unknown name,
`part_004`).  Its Go `int` fields are non-negative in every reachable
state and are modelled as `Nat`. -/
structure STRingBuffer where
  buf : List Nat
  readPos : Nat
  writePos : Nat
  size : Nat
deriving DecidableEq

namespace STRingBuffer

/-- `NewRingBuffer` of the single-threaded variant: errors (here `none`)
when the requested capacity is not positive. -/
def NewRingBuffer (capacity : Int) : Option STRingBuffer :=
  if capacity ≤ 0 then none
  else some { buf := List.replicate capacity.toNat 0, readPos := 0, writePos := 0, size := 0 }

/-- `Capacity` of the single-threaded variant. -/
def Capacity (rb : STRingBuffer) : Nat :=
  rb.buf.length

/-- The single-threaded variant's `Read`.  The count is modelled as `Nat`,
so Go's `n < 0` guard cannot fire; the destination is modelled by its
length `dstLen` and the copied bytes are returned as a list. -/
def Read (rb : STRingBuffer) (n : Nat) (dstLen : Nat) :
    STRingBuffer × List Nat × Nat × Option STError :=
  if n > dstLen then (rb, [], 0, some .dstTooSmall)
  else if rb.size < n then (rb, [], 0, some .insufficientData)
  else
    let capacity := rb.buf.length
    if rb.readPos + n ≤ capacity then
      ({ rb with readPos := (rb.readPos + n) % capacity, size := rb.size - n },
        copyOut dstLen ((rb.buf.drop rb.readPos).take n), n, none)
    else
      ({ rb with readPos := (n - (capacity - rb.readPos)) % capacity, size := rb.size - n },
        copyOut dstLen (rb.buf.drop rb.readPos) ++
          copyOut (dstLen - (capacity - rb.readPos))
            (rb.buf.take (n - (capacity - rb.readPos))), n, none)

/-- The single-threaded variant's `Write`. -/
def Write (rb : STRingBuffer) (data : List Nat) :
    STRingBuffer × Nat × Option STError :=
  let szData := data.length
  let capacity := rb.buf.length
  if szData > capacity - rb.size then (rb, 0, some .insufficientSpace)
  else
    let szToEnd := rb.writePos + szData
    if szToEnd ≤ capacity then
      ({ rb with buf := copyInto rb.buf rb.writePos data, writePos := (rb.writePos + szData) % capacity, size := rb.size + szData }, szData, none)
    else
      let sz1 := capacity - rb.writePos
      ({ rb with buf := copyInto (copyInto rb.buf rb.writePos (data.take sz1)) 0 (data.drop sz1), writePos := (szData - sz1) % capacity, size := rb.size + szData }, szData, none)

/-- Abstraction for the single-threaded variant: its unread bytes in FIFO
order. -/
def unreadST (rb : STRingBuffer) : List Nat :=
  (List.range rb.size).map
    (fun k => rb.buf.getD ((rb.readPos + k) % rb.buf.length) 0)

/-- Well-formedness of a single-threaded buffer state. -/
structure WfST (rb : STRingBuffer) : Prop where
  pos_lt : rb.readPos < rb.buf.length
  size_le : rb.size ≤ rb.buf.length

end STRingBuffer

/-- The sequence of producer/consumer calls of the round-trip property. -/
inductive Op where
  | write (data : List Nat)
  | read (len : Nat)

/-- Run a sequence of operations from a state; returns the final state, the
concatenation of all bytes passed to `Write`, and the concatenation of all
bytes returned by `Read`. -/
def runOps (rb : RingBuffer) : List Op → RingBuffer × List Nat × List Nat
  | [] => (rb, [], [])
  | .write data :: rest =>
      let tail := runOps (rb.Write data).1 rest
      (tail.1, data ++ tail.2.1, tail.2.2)
  | .read len :: rest =>
      let step := rb.Read len
      let tail := runOps step.1 rest
      (tail.1, tail.2.1, step.2.1 ++ tail.2.2)

/-- A sequence is valid when no `Write` is attempted whose length exceeds
`AvailableWrite` at that point. -/
def validOps (rb : RingBuffer) : List Op → Bool
  | [] => true
  | .write data :: rest =>
      decide (data.length ≤ rb.AvailableWrite) && validOps (rb.Write data).1 rest
  | .read len :: rest => validOps (rb.Read len).1 rest

theorem copyInto_length (src : List Nat) :
    ∀ dst s, (copyInto dst s src).length = dst.length := by
  induction src with
  | nil => intro dst s; rfl
  | cons b rest ih => intro dst s; rw [copyInto, ih]; simp

theorem copyInto_getD_lt (src : List Nat) :
    ∀ dst s j, j < s → (copyInto dst s src).getD j 0 = dst.getD j 0 := by
  induction src with
  | nil => intro dst s j _; rfl
  | cons b rest ih =>
      intro dst s j h
      rw [copyInto, ih _ _ _ (Nat.lt_succ_of_lt h)]
      simp [List.getD_eq_getElem?_getD, List.getElem?_set_ne (Nat.ne_of_gt h)]

theorem copyInto_getD_ge (src : List Nat) :
    ∀ dst s j, s + src.length ≤ j → (copyInto dst s src).getD j 0 = dst.getD j 0 := by
  induction src with
  | nil => intro dst s j _; rfl
  | cons b rest ih =>
      intro dst s j h
      simp only [List.length_cons] at h
      rw [copyInto, ih _ _ _ (by omega)]
      have hne : s ≠ j := by omega
      simp [List.getD_eq_getElem?_getD, List.getElem?_set_ne hne]

theorem copyInto_getD_in (src : List Nat) :
    ∀ dst s k, k < src.length → s + k < dst.length →
      (copyInto dst s src).getD (s + k) 0 = src.getD k 0 := by
  induction src with
  | nil => intro dst s k hk _; simp at hk
  | cons b rest ih =>
      intro dst s k hk hlen
      match k with
      | 0 =>
          rw [copyInto, copyInto_getD_lt rest _ _ _ (by omega)]
          have hs : s < dst.length := by omega
          simp [List.getD_eq_getElem?_getD, List.getElem?_set_self hs]
      | k' + 1 =>
          rw [copyInto]
          have := ih (dst.set s b) (s + 1) k' (by simpa using hk) (by simpa using (by omega : (s + 1) + k' < dst.length))
          have harith : s + (k' + 1) = (s + 1) + k' := by omega
          rw [harith, this]
          simp

theorem getD_eq_getElem_of_lt (l : List Nat) (i : Nat) (h : i < l.length) :
    l.getD i 0 = l[i] := by
  simp [List.getD_eq_getElem?_getD, List.getElem?_eq_getElem h]

theorem take_drop_map_range (buf : List Nat) (s n L : Nat) (hbuf : buf.length = L)
    (h : s + n ≤ L) :
    (buf.drop s).take n =
      (List.range n).map (fun k => buf.getD ((s + k) % L) 0) := by
  subst hbuf
  apply List.ext_getElem
  · simp; omega
  · intro i h1 h2
    have hin : i < n := by simpa using h2
    have hi : s + i < buf.length := by omega
    simp only [List.getElem_take, List.getElem_drop, List.getElem_map, List.getElem_range]
    rw [Nat.mod_eq_of_lt hi, getD_eq_getElem_of_lt _ _ hi]

theorem map_range_getD_self (l : List Nat) :
    (List.range l.length).map (fun k => l.getD k 0) = l := by
  apply List.ext_getElem
  · simp
  · intro i h1 h2
    have hi : i < l.length := by simpa using h1
    simp only [List.getElem_map, List.getElem_range]
    exact getD_eq_getElem_of_lt _ _ hi

theorem getD_take_of_lt (l : List Nat) (m j : Nat) (h : j < m) :
    (l.take m).getD j 0 = l.getD j 0 := by
  simp [List.getD_eq_getElem?_getD, List.getElem?_take_of_lt h]

theorem getD_drop (l : List Nat) (m j : Nat) :
    (l.drop m).getD j 0 = l.getD (m + j) 0 := by
  simp [List.getD_eq_getElem?_getD, List.getElem?_drop]

theorem copy_contig_getD_in (buf data : List Nat) (start : Nat)
    (h : start + data.length ≤ buf.length) :
    ∀ j, j < data.length → (copyInto buf start data).getD (start + j) 0 = data.getD j 0 :=
  fun j hj => copyInto_getD_in data buf start j hj (by omega)

theorem copy_contig_getD_out (buf data : List Nat) (start p : Nat)
    (hp : p < start ∨ start + data.length ≤ p) :
    (copyInto buf start data).getD p 0 = buf.getD p 0 := by
  rcases hp with h | h
  · exact copyInto_getD_lt data buf start p h
  · exact copyInto_getD_ge data buf start p h

theorem copy_wrap_getD_in (buf data : List Nat) (start L : Nat) (hbuf : buf.length = L)
    (hstart : start < L) (hlen : data.length ≤ L) :
    ∀ j, j < data.length →
      (copyInto (copyInto buf start (data.take (L - start))) 0
        (data.drop (L - start))).getD ((start + j) % L) 0 =
      data.getD j 0 := by
  subst hbuf
  intro j hj
  by_cases hcase : j < buf.length - start
  · have hpos : (start + j) % buf.length = start + j := Nat.mod_eq_of_lt (by omega)
    rw [hpos]
    rw [copyInto_getD_ge _ _ _ _ (by simp; omega)]
    rw [copyInto_getD_in _ _ _ _ (by simp; omega) (by omega)]
    exact getD_take_of_lt data _ j hcase
  · have hpos : (start + j) % buf.length = j - (buf.length - start) := by
      have hge : buf.length ≤ start + j := by omega
      rw [Nat.mod_eq_sub_mod hge, Nat.mod_eq_of_lt (by omega)]
      omega
    rw [hpos]
    have hin := copyInto_getD_in (data.drop (buf.length - start))
      (copyInto buf start (data.take (buf.length - start))) 0
      (j - (buf.length - start)) (by simp; omega) (by rw [copyInto_length]; omega)
    rw [Nat.zero_add] at hin
    rw [hin, getD_drop]
    congr 1
    omega

theorem copy_wrap_getD_out (buf data : List Nat) (start p L : Nat) (hbuf : buf.length = L)
    (hlo : data.length - (L - start) ≤ p) (hhi : p < start) :
    (copyInto (copyInto buf start (data.take (L - start))) 0
      (data.drop (L - start))).getD p 0 = buf.getD p 0 := by
  subst hbuf
  rw [copyInto_getD_ge _ _ _ _ (by simp; omega)]
  exact copyInto_getD_lt _ _ _ _ hhi

theorem wrap_map_range (buf : List Nat) (s n L : Nat) (hbuf : buf.length = L)
    (h1 : s < L) (h2 : n ≤ L) (h3 : L ≤ s + n) :
    buf.drop s ++ buf.take (s + n - L) =
      (List.range n).map (fun k => buf.getD ((s + k) % L) 0) := by
  subst hbuf
  apply List.ext_getElem
  · simp; omega
  · intro i hL hR
    have hin : i < n := by simpa using hR
    simp only [List.getElem_map, List.getElem_range]
    by_cases hcase : i < buf.length - s
    · rw [List.getElem_append_left (by simp; omega)]
      have hi : s + i < buf.length := by omega
      simp only [List.getElem_drop]
      rw [Nat.mod_eq_of_lt hi, getD_eq_getElem_of_lt _ _ hi]
    · rw [List.getElem_append_right (by simp; omega)]
      have hmod : (s + i) % buf.length = s + i - buf.length := by
        have h2L : s + i < buf.length + buf.length := by omega
        have hge : buf.length ≤ s + i := by omega
        rw [Nat.mod_eq_sub_mod hge, Nat.mod_eq_of_lt (by omega)]
      have hlt : s + i - buf.length < buf.length := by omega
      rw [hmod, getD_eq_getElem_of_lt _ _ hlt]
      simp only [List.getElem_take]
      congr 1
      simp
      omega

namespace RingBuffer

theorem size_pos (rb : RingBuffer) (h : Wf rb) : 0 < rb.size := by
  obtain ⟨k, hk⟩ := h.size_eq
  rw [hk]
  exact Nat.two_pow_pos k

theorem mask_mod (rb : RingBuffer) (h : Wf rb) (p : Nat) :
    p &&& rb.mask = p % rb.size := by
  obtain ⟨k, hk⟩ := h.size_eq
  rw [h.mask_eq, hk, Nat.and_pow_two_sub_one_eq_mod]

theorem Write_eq_success (rb : RingBuffer) (data : List Nat) (h : Wf rb)
    (hne : data.length ≠ 0) (hle : data.length ≤ rb.AvailableWrite) :
    rb.Write data =
      ({ rb with
          buffer :=
            if (rb.writePos + data.length) % rb.size > rb.writePos % rb.size then
              copyInto rb.buffer (rb.writePos % rb.size) data
            else
              copyInto (copyInto rb.buffer (rb.writePos % rb.size)
                (data.take (rb.size - rb.writePos % rb.size))) 0
                (data.drop (rb.size - rb.writePos % rb.size)),
          writePos := rb.writePos + data.length }, data.length, none) := by
  simp only [Write, mask_mod rb h]
  rw [if_neg hne, if_neg (by omega : ¬ data.length > rb.AvailableWrite)]

theorem Write_branch_iff (rb : RingBuffer) (L : Nat) (h : Wf rb)
    (hne : L ≠ 0) (hL : L ≤ rb.size) :
    ((rb.writePos + L) % rb.size > rb.writePos % rb.size ↔
      rb.writePos % rb.size + L < rb.size) := by
  have hsize : 0 < rb.size := size_pos rb h
  have hstart : rb.writePos % rb.size < rb.size := Nat.mod_lt _ hsize
  have hstop : (rb.writePos + L) % rb.size = (rb.writePos % rb.size + L) % rb.size := by
    rw [Nat.mod_add_mod]
  rw [hstop]
  constructor
  · intro hgt
    by_contra hcon
    have hge : rb.size ≤ rb.writePos % rb.size + L := by omega
    rw [Nat.mod_eq_sub_mod hge, Nat.mod_eq_of_lt (by omega)] at hgt
    omega
  · intro hlt
    rw [Nat.mod_eq_of_lt hlt]
    omega

theorem Write_getD_in (rb : RingBuffer) (data : List Nat) (h : Wf rb)
    (hne : data.length ≠ 0) (hle : data.length ≤ rb.AvailableWrite) :
    ∀ j, j < data.length →
      (rb.Write data).1.buffer.getD ((rb.writePos + j) % rb.size) 0 = data.getD j 0 := by
  intro j hj
  have hsize : 0 < rb.size := size_pos rb h
  have hstart : rb.writePos % rb.size < rb.size := Nat.mod_lt _ hsize
  have hL : rb.writePos - rb.readPos + data.length ≤ rb.size := by
    have := h.occ
    unfold AvailableWrite at hle
    omega
  have hLsize : data.length ≤ rb.size := by omega
  have hposj : (rb.writePos + j) % rb.size = (rb.writePos % rb.size + j) % rb.size := by
    rw [Nat.mod_add_mod]
  rw [Write_eq_success rb data h hne hle]
  simp only
  by_cases hc : rb.writePos % rb.size + data.length < rb.size
  · rw [if_pos ((Write_branch_iff rb data.length h hne hLsize).mpr hc)]
    have hcollapse : rb.writePos % rb.size + j < rb.size := by omega
    rw [hposj, Nat.mod_eq_of_lt hcollapse]
    exact copy_contig_getD_in rb.buffer data _ (by rw [h.len_eq]; omega) j hj
  · rw [if_neg (fun hgt => hc ((Write_branch_iff rb data.length h hne hLsize).mp hgt))]
    rw [hposj]
    exact copy_wrap_getD_in rb.buffer data _ rb.size h.len_eq hstart hLsize j hj

theorem Write_getD_out (rb : RingBuffer) (data : List Nat) (h : Wf rb)
    (hne : data.length ≠ 0) (hle : data.length ≤ rb.AvailableWrite) :
    ∀ p, p < rb.size → (∀ j, j < data.length → p ≠ (rb.writePos + j) % rb.size) →
      (rb.Write data).1.buffer.getD p 0 = rb.buffer.getD p 0 := by
  intro p hp havoid
  have hsize : 0 < rb.size := size_pos rb h
  have hstart : rb.writePos % rb.size < rb.size := Nat.mod_lt _ hsize
  have hL : rb.writePos - rb.readPos + data.length ≤ rb.size := by
    have := h.occ
    unfold AvailableWrite at hle
    omega
  have hLsize : data.length ≤ rb.size := by omega
  have hposj : ∀ j, (rb.writePos + j) % rb.size = (rb.writePos % rb.size + j) % rb.size := by
    intro j
    rw [Nat.mod_add_mod]
  rw [Write_eq_success rb data h hne hle]
  simp only
  by_cases hc : rb.writePos % rb.size + data.length < rb.size
  · rw [if_pos ((Write_branch_iff rb data.length h hne hLsize).mpr hc)]
    apply copy_contig_getD_out
    by_contra hcon
    push_neg at hcon
    have hj : p - rb.writePos % rb.size < data.length := by omega
    apply havoid _ hj
    rw [hposj]
    have hcollapse : rb.writePos % rb.size + (p - rb.writePos % rb.size) < rb.size := by
      omega
    rw [Nat.mod_eq_of_lt hcollapse]
    omega
  · rw [if_neg (fun hgt => hc ((Write_branch_iff rb data.length h hne hLsize).mp hgt))]
    have hwrap : rb.size ≤ rb.writePos % rb.size + data.length := by omega
    have hp1 : p < rb.writePos % rb.size := by
      by_contra hcon
      push_neg at hcon
      have hj : p - rb.writePos % rb.size < data.length := by omega
      apply havoid _ hj
      rw [hposj]
      have hcollapse : rb.writePos % rb.size + (p - rb.writePos % rb.size) < rb.size := by
        omega
      rw [Nat.mod_eq_of_lt hcollapse]
      omega
    have hp2 : data.length - (rb.size - rb.writePos % rb.size) ≤ p := by
      by_contra hcon
      push_neg at hcon
      have hj : p + (rb.size - rb.writePos % rb.size) < data.length := by omega
      apply havoid _ hj
      rw [hposj]
      have harith : rb.writePos % rb.size + (p + (rb.size - rb.writePos % rb.size)) =
          p + rb.size := by omega
      rw [harith, Nat.add_mod_right, Nat.mod_eq_of_lt hp]
    exact copy_wrap_getD_out rb.buffer data _ p rb.size h.len_eq hp2 hp1

end RingBuffer

namespace RingBuffer

theorem Write_empty (rb : RingBuffer) (data : List Nat) (hne : data.length = 0) :
    rb.Write data = (rb, 0, none) := by
  simp [Write, hne]

theorem Write_wf (rb : RingBuffer) (data : List Nat) (h : Wf rb)
    (hle : data.length ≤ rb.AvailableWrite) : Wf (rb.Write data).1 := by
  by_cases hne : data.length = 0
  · rw [Write_empty rb data hne]
    exact h
  · rw [Write_eq_success rb data h hne hle]
    refine ⟨by simpa using h.size_eq, by simpa using h.mask_eq, ?_, ?_, ?_⟩
    · show (if _ then _ else _ : List Nat).length = rb.size
      split
      · rw [copyInto_length]
        exact h.len_eq
      · rw [copyInto_length, copyInto_length]
        exact h.len_eq
    · exact Nat.le_trans h.le (Nat.le_add_right _ _)
    · show rb.writePos + data.length - rb.readPos ≤ rb.size
      have h1 := h.le
      have h2 := h.occ
      unfold AvailableWrite at hle
      omega

theorem Write_unread (rb : RingBuffer) (data : List Nat) (h : Wf rb)
    (hle : data.length ≤ rb.AvailableWrite) :
    unread (rb.Write data).1 = unread rb ++ data := by
  by_cases hne : data.length = 0
  · have hnil : data = [] := List.eq_nil_of_length_eq_zero hne
    rw [Write_empty rb data hne, hnil, List.append_nil]
  · have hwp : (rb.Write data).1.writePos = rb.writePos + data.length := by
      rw [Write_eq_success rb data h hne hle]
    have hrp : (rb.Write data).1.readPos = rb.readPos := by
      rw [Write_eq_success rb data h hne hle]
    have hsz : (rb.Write data).1.size = rb.size := by
      rw [Write_eq_success rb data h hne hle]
    have hL : rb.writePos - rb.readPos + data.length ≤ rb.size := by
      have := h.occ
      unfold AvailableWrite at hle
      omega
    unfold unread
    rw [hwp, hrp, hsz]
    have hd : rb.writePos + data.length - rb.readPos =
        (rb.writePos - rb.readPos) + data.length := by
      have := h.le
      omega
    rw [hd, List.range_add, List.map_append]
    congr 1
    · apply List.map_congr_left
      intro k hk
      have hkd : k < rb.writePos - rb.readPos := List.mem_range.mp hk
      apply Write_getD_out rb data h hne hle
      · exact Nat.mod_lt _ (size_pos rb h)
      · intro j hj heq
        have heq2 : (rb.readPos + k) % rb.size =
            (rb.readPos + ((rb.writePos - rb.readPos) + j)) % rb.size := by
          rw [heq]
          congr 1
          have := h.le
          omega
        have hcancel : k % rb.size = ((rb.writePos - rb.readPos) + j) % rb.size :=
          Nat.ModEq.add_left_cancel' rb.readPos heq2
        rw [Nat.mod_eq_of_lt (by omega), Nat.mod_eq_of_lt (by omega)] at hcancel
        omega
    · rw [List.map_map]
      have hmap : ∀ k ∈ List.range data.length,
          ((fun k => (rb.Write data).1.buffer.getD ((rb.readPos + k) % rb.size) 0) ∘
            (fun x => (rb.writePos - rb.readPos) + x)) k = data.getD k 0 := by
        intro k hk
        have hkL : k < data.length := List.mem_range.mp hk
        simp only [Function.comp]
        have harith : rb.readPos + ((rb.writePos - rb.readPos) + k) = rb.writePos + k := by
          have := h.le
          omega
        rw [harith]
        exact Write_getD_in rb data h hne hle k hkL
      rw [List.map_congr_left hmap]
      exact map_range_getD_self data

end RingBuffer

namespace RingBuffer

theorem read_branch_iff (rb : RingBuffer) (t : Nat) (h : Wf rb)
    (hne : t ≠ 0) (ht : t ≤ rb.size) :
    ((rb.readPos + t) % rb.size > rb.readPos % rb.size ↔
      rb.readPos % rb.size + t < rb.size) := by
  have hsize : 0 < rb.size := size_pos rb h
  have hstart : rb.readPos % rb.size < rb.size := Nat.mod_lt _ hsize
  have hstop : (rb.readPos + t) % rb.size = (rb.readPos % rb.size + t) % rb.size := by
    rw [Nat.mod_add_mod]
  rw [hstop]
  constructor
  · intro hgt
    by_contra hcon
    have hge : rb.size ≤ rb.readPos % rb.size + t := by omega
    rw [Nat.mod_eq_sub_mod hge, Nat.mod_eq_of_lt (by omega)] at hgt
    omega
  · intro hlt
    rw [Nat.mod_eq_of_lt hlt]
    omega

theorem seg_contig_eq (rb : RingBuffer) (t : Nat) (h : Wf rb)
    (hc : rb.readPos % rb.size + t < rb.size) :
    (rb.buffer.drop (rb.readPos % rb.size)).take t =
      (List.range t).map (fun k => rb.buffer.getD ((rb.readPos + k) % rb.size) 0) := by
  rw [take_drop_map_range rb.buffer _ t rb.size h.len_eq (by omega)]
  apply List.map_congr_left
  intro k _
  rw [Nat.mod_add_mod]

theorem seg_wrap_eq (rb : RingBuffer) (t : Nat) (h : Wf rb) (ht : t ≤ rb.size)
    (hc : rb.size ≤ rb.readPos % rb.size + t) :
    rb.buffer.drop (rb.readPos % rb.size) ++ rb.buffer.take ((rb.readPos + t) % rb.size) =
      (List.range t).map (fun k => rb.buffer.getD ((rb.readPos + k) % rb.size) 0) := by
  have hsize : 0 < rb.size := size_pos rb h
  have hstart : rb.readPos % rb.size < rb.size := Nat.mod_lt _ hsize
  have hstop : (rb.readPos + t) % rb.size = rb.readPos % rb.size + t - rb.size := by
    rw [← Nat.mod_add_mod, Nat.mod_eq_sub_mod hc, Nat.mod_eq_of_lt (by omega)]
  rw [hstop, wrap_map_range rb.buffer _ t rb.size h.len_eq hstart ht hc]
  apply List.map_congr_left
  intro k _
  rw [Nat.mod_add_mod]

theorem unread_length (rb : RingBuffer) : (unread rb).length = rb.AvailableRead := by
  simp [unread, AvailableRead]

theorem unread_take (rb : RingBuffer) (t : Nat) (ht : t ≤ rb.AvailableRead) :
    (unread rb).take t =
      (List.range t).map (fun k => rb.buffer.getD ((rb.readPos + k) % rb.size) 0) := by
  unfold unread
  rw [← List.map_take, List.take_range]
  have hmin : min t (rb.writePos - rb.readPos) = t := by
    unfold AvailableRead at ht
    omega
  rw [hmin]

theorem Read_eq (rb : RingBuffer) (M : Nat) (h : Wf rb) :
    rb.Read M = ({ rb with readPos := rb.readPos + min M rb.AvailableRead },
      (unread rb).take (min M rb.AvailableRead), min M rb.AvailableRead,
      if 0 < M ∧ rb.AvailableRead = 0 then some RBError.insufficientData else none) := by
  by_cases hM : M = 0
  · subst hM
    simp [Read]
  · by_cases havail : rb.AvailableRead = 0
    · have hunread : unread rb = [] := by
        unfold unread
        unfold AvailableRead at havail
        rw [havail]
        rfl
      simp [Read, hM, havail, hunread, Nat.pos_of_ne_zero hM]
    · have hsize : 0 < rb.size := size_pos rb h
      have htle : min M rb.AvailableRead ≤ rb.AvailableRead := Nat.min_le_right _ _
      have htsz : min M rb.AvailableRead ≤ rb.size := by
        have := h.occ
        unfold AvailableRead at *
        omega
      have htne : min M rb.AvailableRead ≠ 0 := by
        have : 0 < M := Nat.pos_of_ne_zero hM
        have : 0 < rb.AvailableRead := Nat.pos_of_ne_zero havail
        omega
      simp only [Read, mask_mod rb h]
      rw [if_neg hM, if_neg havail, if_neg (by simp [havail] : ¬ (0 < M ∧ rb.AvailableRead = 0))]
      refine Prod.ext rfl (Prod.ext ?_ rfl)
      show (if _ then _ else _ : List Nat) = _
      by_cases hc : rb.readPos % rb.size + min M rb.AvailableRead < rb.size
      · rw [if_pos ((read_branch_iff rb _ h htne htsz).mpr hc)]
        have hstop : (rb.readPos + min M rb.AvailableRead) % rb.size =
            rb.readPos % rb.size + min M rb.AvailableRead := by
          rw [← Nat.mod_add_mod, Nat.mod_eq_of_lt hc]
        rw [unread_take rb _ htle, hstop]
        have hdiff : rb.readPos % rb.size + min M rb.AvailableRead - rb.readPos % rb.size =
            min M rb.AvailableRead := by omega
        rw [hdiff]
        unfold copyOut
        rw [List.take_take, Nat.min_self]
        exact seg_contig_eq rb _ h hc
      · rw [if_neg (fun hgt => hc ((read_branch_iff rb _ h htne htsz).mp hgt))]
        have hwrap : rb.size ≤ rb.readPos % rb.size + min M rb.AvailableRead := by omega
        have hstart : rb.readPos % rb.size < rb.size := Nat.mod_lt _ hsize
        have hstop : (rb.readPos + min M rb.AvailableRead) % rb.size =
            rb.readPos % rb.size + min M rb.AvailableRead - rb.size := by
          rw [← Nat.mod_add_mod, Nat.mod_eq_sub_mod hwrap, Nat.mod_eq_of_lt (by omega)]
        rw [unread_take rb _ htle]
        unfold copyOut
        have hfc : (rb.buffer.drop (rb.readPos % rb.size)).take (rb.size - rb.readPos % rb.size) =
            rb.buffer.drop (rb.readPos % rb.size) := by
          apply List.take_of_length_le
          rw [List.length_drop, h.len_eq]
        have htk : (rb.buffer.take ((rb.readPos + min M rb.AvailableRead) % rb.size)).take
            (min M rb.AvailableRead - (rb.size - rb.readPos % rb.size)) =
            rb.buffer.take ((rb.readPos + min M rb.AvailableRead) % rb.size) := by
          rw [List.take_take]
          congr 1
          rw [hstop]
          omega
        rw [hfc, htk, hstop, ← seg_wrap_eq rb _ h htsz hwrap, hstop]

end RingBuffer

namespace RingBuffer

theorem unread_advance (rb : RingBuffer) (t : Nat) :
    unread { rb with readPos := rb.readPos + t } = (unread rb).drop t := by
  show (List.range (rb.writePos - (rb.readPos + t))).map
      (fun k => rb.buffer.getD ((rb.readPos + t + k) % rb.size) 0) =
    ((List.range (rb.writePos - rb.readPos)).map
      (fun k => rb.buffer.getD ((rb.readPos + k) % rb.size) 0)).drop t
  apply List.ext_getElem
  · simp
    omega
  · intro i h1 h2
    simp only [List.getElem_drop, List.getElem_map, List.getElem_range]
    congr 2
    omega

theorem Consume_ok (rb : RingBuffer) (n : Nat) (hn : n ≤ rb.AvailableRead) :
    rb.Consume n = ({ rb with readPos := rb.readPos + n }, none) := by
  by_cases h0 : n = 0
  · subst h0
    simp [Consume]
  · unfold Consume
    rw [if_neg h0, if_neg (by omega : ¬ n > rb.AvailableRead)]

theorem Consume_err (rb : RingBuffer) (n : Nat) (hn : rb.AvailableRead < n) :
    rb.Consume n = (rb, some RBError.insufficientData) := by
  unfold Consume
  rw [if_neg (by omega : ¬ n = 0), if_pos (by omega : n > rb.AvailableRead)]

theorem ReadSlices_state (rb : RingBuffer) : (rb.ReadSlices).1 = rb := by
  simp only [ReadSlices]
  split
  · rfl
  · split <;> rfl

theorem PeekContiguous_state (rb : RingBuffer) : (rb.PeekContiguous).1 = rb := by
  simp only [PeekContiguous]
  split
  · rfl
  · split <;> rfl

theorem ReadSlices_total (rb : RingBuffer) :
    (rb.ReadSlices).2.2.2 = rb.AvailableRead := by
  simp only [ReadSlices]
  split
  · next h1 => rw [h1]
  · split <;> rfl

theorem ReadSlices_empty (rb : RingBuffer) (h1 : rb.AvailableRead = 0) :
    rb.ReadSlices = (rb, none, none, 0) := by
  unfold ReadSlices
  rw [if_pos h1]

theorem ReadSlices_contig (rb : RingBuffer) (h : Wf rb) (h1 : rb.AvailableRead ≠ 0)
    (hc : rb.readPos % rb.size + rb.AvailableRead < rb.size) :
    rb.ReadSlices = (rb, some ((unread rb).take rb.AvailableRead), none, rb.AvailableRead) := by
  unfold ReadSlices
  simp only [mask_mod rb h]
  rw [if_neg h1, if_pos ((read_branch_iff rb _ h h1 (by omega)).mpr hc)]
  have hstop : (rb.readPos + rb.AvailableRead) % rb.size =
      rb.readPos % rb.size + rb.AvailableRead := by
    rw [← Nat.mod_add_mod, Nat.mod_eq_of_lt hc]
  rw [hstop]
  have hdiff : rb.readPos % rb.size + rb.AvailableRead - rb.readPos % rb.size =
      rb.AvailableRead := by omega
  rw [hdiff, unread_take rb _ (Nat.le_refl _), seg_contig_eq rb _ h hc]

theorem ReadSlices_wrap (rb : RingBuffer) (h : Wf rb) (h1 : rb.AvailableRead ≠ 0)
    (hc : rb.size ≤ rb.readPos % rb.size + rb.AvailableRead) :
    rb.ReadSlices = (rb, some (rb.buffer.drop (rb.readPos % rb.size)),
      some (rb.buffer.take (rb.readPos % rb.size + rb.AvailableRead - rb.size)),
      rb.AvailableRead) := by
  have havsz : rb.AvailableRead ≤ rb.size := by
    have := h.occ
    unfold AvailableRead
    omega
  unfold ReadSlices
  simp only [mask_mod rb h]
  rw [if_neg h1, if_neg (fun hgt => by
    have := (read_branch_iff rb _ h h1 havsz).mp hgt
    omega)]
  have hmlt : rb.readPos % rb.size < rb.size := Nat.mod_lt _ (size_pos rb h)
  have hlt2 : rb.readPos % rb.size + rb.AvailableRead - rb.size < rb.size := by omega
  have hstop : (rb.readPos + rb.AvailableRead) % rb.size =
      rb.readPos % rb.size + rb.AvailableRead - rb.size := by
    rw [← Nat.mod_add_mod, Nat.mod_eq_sub_mod hc, Nat.mod_eq_of_lt hlt2]
  rw [hstop]

theorem ReadSlices_concat (rb : RingBuffer) (h : Wf rb) :
    ((rb.ReadSlices).2.1.getD []) ++ ((rb.ReadSlices).2.2.1.getD []) = unread rb := by
  by_cases h1 : rb.AvailableRead = 0
  · rw [ReadSlices_empty rb h1]
    unfold unread AvailableRead at *
    rw [h1]
    rfl
  · by_cases hc : rb.readPos % rb.size + rb.AvailableRead < rb.size
    · rw [ReadSlices_contig rb h h1 hc]
      simp only [Option.getD_some, Option.getD_none, List.append_nil]
      rw [List.take_of_length_le (by rw [unread_length])]
    · have hcge : rb.size ≤ rb.readPos % rb.size + rb.AvailableRead := by omega
      have havsz : rb.AvailableRead ≤ rb.size := by
        have := h.occ
        unfold AvailableRead
        omega
      rw [ReadSlices_wrap rb h h1 hcge]
      simp only [Option.getD_some]
      have hmlt : rb.readPos % rb.size < rb.size := Nat.mod_lt _ (size_pos rb h)
      have hlt2 : rb.readPos % rb.size + rb.AvailableRead - rb.size < rb.size := by omega
      have hstop : (rb.readPos + rb.AvailableRead) % rb.size =
          rb.readPos % rb.size + rb.AvailableRead - rb.size := by
        rw [← Nat.mod_add_mod, Nat.mod_eq_sub_mod hcge, Nat.mod_eq_of_lt hlt2]
      rw [← hstop, seg_wrap_eq rb _ h havsz hcge]
      rfl

end RingBuffer

theorem orShift_window (a m c : Nat)
    (h : ∀ i, a.testBit i = true ↔ ∃ d, d < c ∧ m.testBit (i + d) = true) (i : Nat) :
    (a ||| (a >>> c)).testBit i = true ↔
      ∃ d, d < c + c ∧ m.testBit (i + d) = true := by
  rw [Nat.testBit_or, Nat.testBit_shiftRight, Bool.or_eq_true]
  constructor
  · intro hor
    rcases hor with h1 | h2
    · obtain ⟨d, hd, hbit⟩ := (h i).mp h1
      exact ⟨d, by omega, hbit⟩
    · obtain ⟨d, hd, hbit⟩ := (h (c + i)).mp h2
      refine ⟨c + d, by omega, ?_⟩
      have harith : i + (c + d) = c + i + d := by omega
      rw [harith]
      exact hbit
  · rintro ⟨d, hd, hbit⟩
    by_cases hdc : d < c
    · exact Or.inl ((h i).mpr ⟨d, hdc, hbit⟩)
    · refine Or.inr ((h (c + i)).mpr ⟨d - c, by omega, ?_⟩)
      have harith : c + i + (d - c) = i + d := by omega
      rw [harith]
      exact hbit

theorem window_one (m : Nat) (i : Nat) :
    m.testBit i = true ↔ ∃ d, d < 1 ∧ m.testBit (i + d) = true := by
  constructor
  · intro hb
    exact ⟨0, by omega, by simpa using hb⟩
  · rintro ⟨d, hd, hb⟩
    have hd0 : d = 0 := by omega
    subst hd0
    simpa using hb

theorem testBit_log2_self (m : Nat) (hm : m ≠ 0) : m.testBit m.log2 = true := by
  have h1 : 2 ^ m.log2 ≤ m := Nat.log2_self_le hm
  have h2 : m < 2 ^ (m.log2 + 1) := Nat.lt_log2_self
  rw [Nat.testBit_to_div_mod]
  have hdiv : m / 2 ^ m.log2 = 1 := by
    have hlow : 1 ≤ m / 2 ^ m.log2 := (Nat.one_le_div_iff (Nat.two_pow_pos _)).mpr h1
    have hhigh : m / 2 ^ m.log2 < 2 := by
      rw [Nat.div_lt_iff_lt_mul (Nat.two_pow_pos _)]
      calc m < 2 ^ (m.log2 + 1) := h2
        _ = 2 * 2 ^ m.log2 := by rw [Nat.pow_succ, Nat.mul_comm]
    omega
  rw [hdiv]
  rfl

theorem nextPowerOf2_eq_pow (n : Nat) (h1 : 2 ≤ n) (h2 : n ≤ 2 ^ 63) :
    nextPowerOf2 n = 2 ^ ((n - 1).log2 + 1) := by
  have hm : n - 1 ≠ 0 := by omega
  have hmlt : n - 1 < 2 ^ 63 := by omega
  have hL : (n - 1).log2 < 63 := (Nat.log2_lt hm).mpr hmlt
  simp only [nextPowerOf2, if_neg (by omega : ¬ n = 0)]
  set m := n - 1 with hmdef
  set a1 := m ||| m >>> 1 with ha1
  set a2 := a1 ||| a1 >>> 2 with ha2
  set a3 := a2 ||| a2 >>> 4 with ha3
  set a4 := a3 ||| a3 >>> 8 with ha4
  set a5 := a4 ||| a4 >>> 16 with ha5
  set a6 := a5 ||| a5 >>> 32 with ha6
  have w1 : ∀ i, a1.testBit i = true ↔ ∃ d, d < 2 ∧ m.testBit (i + d) = true := by
    intro i
    rw [ha1]
    exact orShift_window m m 1 (window_one m) i
  have w2 : ∀ i, a2.testBit i = true ↔ ∃ d, d < 4 ∧ m.testBit (i + d) = true := by
    intro i
    rw [ha2]
    exact orShift_window a1 m 2 w1 i
  have w3 : ∀ i, a3.testBit i = true ↔ ∃ d, d < 8 ∧ m.testBit (i + d) = true := by
    intro i
    rw [ha3]
    exact orShift_window a2 m 4 w2 i
  have w4 : ∀ i, a4.testBit i = true ↔ ∃ d, d < 16 ∧ m.testBit (i + d) = true := by
    intro i
    rw [ha4]
    exact orShift_window a3 m 8 w3 i
  have w5 : ∀ i, a5.testBit i = true ↔ ∃ d, d < 32 ∧ m.testBit (i + d) = true := by
    intro i
    rw [ha5]
    exact orShift_window a4 m 16 w4 i
  have w6 : ∀ i, a6.testBit i = true ↔ ∃ d, d < 64 ∧ m.testBit (i + d) = true := by
    intro i
    rw [ha6]
    exact orShift_window a5 m 32 w5 i
  have hval : a6 = 2 ^ (m.log2 + 1) - 1 := by
    apply Nat.eq_of_testBit_eq
    intro i
    have hiff : a6.testBit i = true ↔ i < m.log2 + 1 := by
      rw [w6 i]
      constructor
      · rintro ⟨d, hd, hbit⟩
        have hge := Nat.testBit_implies_ge hbit
        have hlt2 : m < 2 ^ (m.log2 + 1) := Nat.lt_log2_self
        have hpow : 2 ^ (i + d) < 2 ^ (m.log2 + 1) := lt_of_le_of_lt hge hlt2
        have := (Nat.pow_lt_pow_iff_right (by omega : 1 < 2)).mp hpow
        omega
      · intro hi
        refine ⟨m.log2 - i, by omega, ?_⟩
        have harith : i + (m.log2 - i) = m.log2 := by omega
        rw [harith]
        exact testBit_log2_self m hm
    rw [Nat.testBit_two_pow_sub_one]
    by_cases hi : i < m.log2 + 1
    · rw [hiff.mpr hi]
      exact (decide_eq_true hi).symm
    · have hfalse : a6.testBit i = false := by
        cases hb : a6.testBit i
        · rfl
        · exact absurd (hiff.mp hb) hi
      rw [hfalse]
      exact (decide_eq_false hi).symm
  rw [hval]
  have hcancel : 2 ^ (m.log2 + 1) - 1 + 1 = 2 ^ (m.log2 + 1) :=
    Nat.succ_pred_eq_of_pos (Nat.two_pow_pos _)
  rw [hcancel]
  apply Nat.mod_eq_of_lt
  calc 2 ^ (m.log2 + 1) ≤ 2 ^ 63 := Nat.pow_le_pow_right (by omega) (by omega)
    _ < 2 ^ 64 := by norm_num

/-- What the spec asks of capacity rounding: `s` is the smallest power of
two that is at least `n`. -/
def isLeastPow2 (n s : Nat) : Prop :=
  (∃ k, s = 2 ^ k) ∧ n ≤ s ∧ ∀ j, n ≤ 2 ^ j → s ≤ 2 ^ j

theorem nextPowerOf2_least (n : Nat) (h2 : n ≤ 2 ^ 63) :
    isLeastPow2 n (nextPowerOf2 n) := by
  by_cases hn : n ≤ 1
  · have hval : nextPowerOf2 n = 1 := by
      rcases Nat.le_one_iff_eq_zero_or_eq_one.mp hn with h | h <;> subst h <;> rfl
    rw [hval]
    exact ⟨⟨0, rfl⟩, by omega, fun j _ => Nat.one_le_two_pow⟩
  · have h1 : 2 ≤ n := by omega
    have hm : n - 1 ≠ 0 := by omega
    rw [nextPowerOf2_eq_pow n h1 h2]
    refine ⟨⟨_, rfl⟩, ?_, ?_⟩
    · have hlt : n - 1 < 2 ^ ((n - 1).log2 + 1) := Nat.lt_log2_self
      omega
    · intro j hj
      have hlt : n - 1 < 2 ^ j := by omega
      have hlog : (n - 1).log2 < j := (Nat.log2_lt hm).mpr hlt
      exact Nat.pow_le_pow_right (by omega) (by omega)

theorem nextPowerOf2_pos (n : Nat) (h2 : n ≤ 2 ^ 63) : 0 < nextPowerOf2 n := by
  obtain ⟨⟨k, hk⟩, -, -⟩ := nextPowerOf2_least n h2
  rw [hk]
  exact Nat.two_pow_pos k

namespace RingBuffer

theorem New_wf (n : Nat) (h : n ≤ 2 ^ 63) : Wf (New n) := by
  obtain ⟨⟨k, hk⟩, -, -⟩ := nextPowerOf2_least n h
  exact ⟨⟨k, hk⟩, rfl, by simp [New], Nat.le_refl _, by simp [New]⟩

theorem New_unread (n : Nat) : unread (New n) = [] := rfl

theorem New_availableRead (n : Nat) : (New n).AvailableRead = 0 := rfl

end RingBuffer

namespace STRingBuffer

theorem unreadST_take (rb : STRingBuffer) (n : Nat) (hn : n ≤ rb.size) :
    (unreadST rb).take n =
      (List.range n).map (fun k => rb.buf.getD ((rb.readPos + k) % rb.buf.length) 0) := by
  unfold unreadST
  rw [← List.map_take, List.take_range, Nat.min_eq_left hn]

theorem STRead_err (rb : STRingBuffer) (n dstLen : Nat) (hdst : n ≤ dstLen)
    (hsz : rb.size < n) :
    rb.Read n dstLen = (rb, [], 0, some STError.insufficientData) := by
  unfold Read
  rw [if_neg (by omega : ¬ n > dstLen), if_pos hsz]

theorem STRead_ok (rb : STRingBuffer) (n dstLen : Nat) (h : WfST rb)
    (hn : n ≤ rb.size) (hdst : n ≤ dstLen) :
    rb.Read n dstLen =
      ({ rb with readPos := (rb.readPos + n) % rb.buf.length, size := rb.size - n },
        (unreadST rb).take n, n, none) := by
  have hcap : 0 < rb.buf.length := by
    have := h.pos_lt
    omega
  have hszcap : rb.size ≤ rb.buf.length := h.size_le
  have hrp : rb.readPos < rb.buf.length := h.pos_lt
  rw [unreadST_take rb n hn]
  unfold Read
  rw [if_neg (by omega : ¬ n > dstLen), if_neg (by omega : ¬ rb.size < n)]
  by_cases hc : rb.readPos + n ≤ rb.buf.length
  · simp only [if_pos hc]
    unfold copyOut
    rw [List.take_take, Nat.min_eq_right hdst,
      take_drop_map_range rb.buf rb.readPos n rb.buf.length rfl hc]
  · simp only [if_neg hc]
    have hgt : rb.buf.length < rb.readPos + n := by omega
    have heqpos : n - (rb.buf.length - rb.readPos) = rb.readPos + n - rb.buf.length := by
      omega
    have hposmod : (rb.readPos + n - rb.buf.length) % rb.buf.length =
        rb.readPos + n - rb.buf.length := Nat.mod_eq_of_lt (by omega)
    have hposmod2 : (rb.readPos + n) % rb.buf.length = rb.readPos + n - rb.buf.length := by
      rw [Nat.mod_eq_sub_mod (by omega), hposmod]
    unfold copyOut
    have hfc : (rb.buf.drop rb.readPos).take dstLen = rb.buf.drop rb.readPos := by
      apply List.take_of_length_le
      rw [List.length_drop]
      omega
    have htk : (rb.buf.take (n - (rb.buf.length - rb.readPos))).take
        (dstLen - (rb.buf.length - rb.readPos)) =
        rb.buf.take (n - (rb.buf.length - rb.readPos)) := by
      rw [List.take_take]
      congr 1
      omega
    have hwrap := wrap_map_range rb.buf rb.readPos n rb.buf.length rfl hrp
      (by omega) (by omega)
    rw [hfc, htk, heqpos, hposmod, hposmod2, hwrap]

end STRingBuffer

namespace RingBuffer

theorem Read_wf (rb : RingBuffer) (M : Nat) (h : Wf rb) : Wf (rb.Read M).1 := by
  rw [Read_eq rb M h]
  have ha : rb.AvailableRead = rb.writePos - rb.readPos := rfl
  have hle := h.le
  have hocc := h.occ
  refine ⟨by simpa using h.size_eq, by simpa using h.mask_eq, by simpa using h.len_eq, ?_, ?_⟩
  · show rb.readPos + min M rb.AvailableRead ≤ rb.writePos
    omega
  · show rb.writePos - (rb.readPos + min M rb.AvailableRead) ≤ rb.size
    omega

theorem runOps_spec (ops : List Op) : ∀ rb, Wf rb → validOps rb ops = true →
    Wf (runOps rb ops).1 ∧
    (runOps rb ops).2.2 ++ unread (runOps rb ops).1 = unread rb ++ (runOps rb ops).2.1 := by
  induction ops with
  | nil =>
      intro rb h _
      exact ⟨h, by simp [runOps]⟩
  | cons op rest ih =>
      intro rb h hvalid
      cases op with
      | write data =>
          simp only [validOps, Bool.and_eq_true] at hvalid
          obtain ⟨h1, h2⟩ := hvalid
          have hle := of_decide_eq_true h1
          have hwf' := Write_wf rb data h hle
          obtain ⟨hwff, hrt⟩ := ih (rb.Write data).1 hwf' h2
          simp only [runOps]
          refine ⟨hwff, ?_⟩
          rw [hrt, Write_unread rb data h hle, List.append_assoc]
      | read len =>
          simp only [validOps] at hvalid
          have hwf' := Read_wf rb len h
          obtain ⟨hwff, hrt⟩ := ih (rb.Read len).1 hwf' hvalid
          simp only [runOps]
          refine ⟨hwff, ?_⟩
          have hbytes : (rb.Read len).2.1 = (unread rb).take (min len rb.AvailableRead) := by
            rw [Read_eq rb len h]
          have hstate : unread (rb.Read len).1 = (unread rb).drop (min len rb.AvailableRead) := by
            rw [Read_eq rb len h]
            exact unread_advance rb _
          rw [List.append_assoc, hrt, hstate, hbytes, ← List.append_assoc,
            List.take_append_drop]

end RingBuffer

open RingBuffer in
/-- C1: for every sequence of `Write` and `Read` calls on a buffer created
by `New` in which no `Write` exceeds `AvailableWrite()` at its point of
call, the bytes returned by the `Read` calls are, in order, exactly the
bytes passed to the `Write` calls: the read stream is always a prefix of
the write stream (the written bytes are the read bytes followed by the
still-unread remainder), and once the buffer is drained the two streams
are equal — across arbitrary wraparound, which the trace quantification
covers. -/
theorem c1_fifo_round_trip (n : Nat) (ops : List Op) (hn : n ≤ 2 ^ 63)
    (hvalid : validOps (New n) ops = true) :
    (runOps (New n) ops).2.1 =
      (runOps (New n) ops).2.2 ++ unread (runOps (New n) ops).1 ∧
    ((runOps (New n) ops).1.AvailableRead = 0 →
      (runOps (New n) ops).2.2 = (runOps (New n) ops).2.1) := by
  obtain ⟨hwf, hrt⟩ := runOps_spec ops (New n) (New_wf n hn) hvalid
  rw [New_unread, List.nil_append] at hrt
  refine ⟨hrt.symm, ?_⟩
  intro hdrained
  have hlen := unread_length (runOps (New n) ops).1
  rw [hdrained] at hlen
  have hempty : unread (runOps (New n) ops).1 = [] :=
    List.eq_nil_of_length_eq_zero hlen
  rw [hempty, List.append_nil] at hrt
  exact hrt

open RingBuffer in
theorem c1_fifo_round_trip_witness :
    (runOps (New 4) [Op.write [1, 2, 3], Op.read 2, Op.write [4, 5, 6], Op.read 10]).2.1 =
      (runOps (New 4) [Op.write [1, 2, 3], Op.read 2, Op.write [4, 5, 6], Op.read 10]).2.2 ++
        unread (runOps (New 4)
          [Op.write [1, 2, 3], Op.read 2, Op.write [4, 5, 6], Op.read 10]).1 ∧
    ((runOps (New 4) [Op.write [1, 2, 3], Op.read 2, Op.write [4, 5, 6], Op.read 10]).1.AvailableRead = 0 →
      (runOps (New 4) [Op.write [1, 2, 3], Op.read 2, Op.write [4, 5, 6], Op.read 10]).2.2 =
        (runOps (New 4) [Op.write [1, 2, 3], Op.read 2, Op.write [4, 5, 6], Op.read 10]).2.1) :=
  c1_fifo_round_trip 4 [Op.write [1, 2, 3], Op.read 2, Op.write [4, 5, 6], Op.read 10]
    (by decide) (by decide)

open RingBuffer in
/-- C2: for a non-empty input on a well-formed state, `Write` either fails
with `insufficientSpace` leaving the entire state untouched (when the
input is longer than `AvailableWrite`), or copies all bytes, returns the
full length with no error, appends exactly the input to the unread
content, and increases `AvailableRead` by the input length — never a
partial write. -/
theorem c2_write_all_or_nothing (rb : RingBuffer) (data : List Nat)
    (h : Wf rb) (hne : data ≠ []) :
    (rb.AvailableWrite < data.length →
      rb.Write data = (rb, 0, some RBError.insufficientSpace)) ∧
    (data.length ≤ rb.AvailableWrite →
      (rb.Write data).2.1 = data.length ∧
      (rb.Write data).2.2 = none ∧
      unread (rb.Write data).1 = unread rb ++ data ∧
      (rb.Write data).1.AvailableRead = rb.AvailableRead + data.length) := by
  have hlen0 : data.length ≠ 0 := fun h0 => hne (List.length_eq_zero.mp h0)
  constructor
  · intro hgt
    simp only [Write]
    rw [if_neg hlen0, if_pos (by omega : data.length > rb.AvailableWrite)]
  · intro hle
    refine ⟨?_, ?_, Write_unread rb data h hle, ?_⟩
    · rw [Write_eq_success rb data h hlen0 hle]
    · rw [Write_eq_success rb data h hlen0 hle]
    · rw [Write_eq_success rb data h hlen0 hle]
      show rb.writePos + data.length - rb.readPos = rb.AvailableRead + data.length
      have h1 := h.le
      have h2 : rb.AvailableRead = rb.writePos - rb.readPos := rfl
      omega

open RingBuffer in
theorem c2_write_all_or_nothing_witness :
    ((New 4).Write [1, 2, 3]).2.1 = 3 ∧
    unread ((New 4).Write [1, 2, 3]).1 = unread (New 4) ++ [1, 2, 3] :=
  ⟨((c2_write_all_or_nothing (New 4) [1, 2, 3]
      ⟨⟨2, by decide⟩, by decide, by decide, by decide, by decide⟩
      (by decide)).2 (by decide)).1,
    ((c2_write_all_or_nothing (New 4) [1, 2, 3]
      ⟨⟨2, by decide⟩, by decide, by decide, by decide, by decide⟩
      (by decide)).2 (by decide)).2.2.1⟩

open RingBuffer in
/-- C3: for a positive destination length `M` on a well-formed state,
`Read` fails with `insufficientData` exactly when nothing is available;
otherwise it succeeds, copying exactly `min M available` bytes (the first
that many unread bytes), returning that count, and advancing the read
cursor by that count — it never errors merely because fewer than `M`
bytes are available while at least one is. -/
theorem c3_read_contract (rb : RingBuffer) (M : Nat) (h : Wf rb) (hM : 0 < M) :
    ((rb.Read M).2.2.2 = some RBError.insufficientData ↔ rb.AvailableRead = 0) ∧
    (0 < rb.AvailableRead →
      (rb.Read M).2.2.2 = none ∧
      (rb.Read M).2.1 = (unread rb).take (min M rb.AvailableRead) ∧
      (rb.Read M).2.1.length = min M rb.AvailableRead ∧
      (rb.Read M).2.2.1 = min M rb.AvailableRead ∧
      (rb.Read M).1.readPos = rb.readPos + min M rb.AvailableRead) := by
  rw [Read_eq rb M h]
  constructor
  · by_cases hav : rb.AvailableRead = 0
    · rw [if_pos ⟨hM, hav⟩]
      simp [hav]
    · rw [if_neg (fun hc => hav hc.2)]
      simp [hav]
  · intro hpos
    rw [if_neg (fun hc => by omega)]
    refine ⟨rfl, rfl, ?_, rfl, rfl⟩
    rw [List.length_take, unread_length]
    have := Nat.min_le_right M rb.AvailableRead
    omega

open RingBuffer in
theorem c3_read_contract_witness :
    (((New 4).Write [1, 2, 3]).1.Read 10).2.2.1 = 3 :=
  ((c3_read_contract ((New 4).Write [1, 2, 3]).1 10
    ⟨⟨2, by decide⟩, by decide, by decide, by decide, by decide⟩
    (by decide)).2 (by decide)).2.2.2.1

open RingBuffer in
/-- C4: the cursor invariant `readPos ≤ writePos ∧ writePos - readPos ≤ size`
holds for every newly constructed buffer and is preserved by `Write`,
`Read`, `ReadSlices`, `PeekContiguous`, `Consume` and `Reset`: no
operation advances the write cursor past `size` bytes of occupancy, and
none advances the read cursor beyond the write cursor. -/
theorem c4_cursor_invariant :
    (∀ n, CursorInv (New n)) ∧
    (∀ rb data, CursorInv rb → CursorInv (rb.Write data).1) ∧
    (∀ rb M, CursorInv rb → CursorInv (rb.Read M).1) ∧
    (∀ rb, CursorInv rb → CursorInv (rb.ReadSlices).1) ∧
    (∀ rb, CursorInv rb → CursorInv (rb.PeekContiguous).1) ∧
    (∀ rb k, CursorInv rb → CursorInv (rb.Consume k).1) ∧
    (∀ rb : RingBuffer, CursorInv (Reset rb)) := by
  refine ⟨?_, ?_, ?_, ?_, ?_, ?_, ?_⟩
  · intro n
    exact ⟨Nat.le_refl 0, Nat.zero_le _⟩
  · intro rb data hinv
    obtain ⟨hle, hocc⟩ := hinv
    by_cases h0 : data.length = 0
    · rw [Write_empty rb data h0]
      exact ⟨hle, hocc⟩
    · by_cases hgt : data.length > rb.AvailableWrite
      · have herr : rb.Write data = (rb, 0, some RBError.insufficientSpace) := by
          simp only [Write]
          rw [if_neg h0, if_pos hgt]
        rw [herr]
        exact ⟨hle, hocc⟩
      · simp only [Write]
        rw [if_neg h0, if_neg hgt]
        have hav : rb.AvailableWrite = rb.size - (rb.writePos - rb.readPos) := rfl
        refine ⟨?_, ?_⟩
        · show rb.readPos ≤ rb.writePos + data.length
          omega
        · show rb.writePos + data.length - rb.readPos ≤ rb.size
          omega
  · intro rb M hinv
    obtain ⟨hle, hocc⟩ := hinv
    by_cases h0 : M = 0
    · subst h0
      simp only [Read]
      exact ⟨hle, hocc⟩
    · by_cases hav : rb.AvailableRead = 0
      · simp only [Read]
        rw [if_neg h0, if_pos hav]
        exact ⟨hle, hocc⟩
      · simp only [Read]
        rw [if_neg h0, if_neg hav]
        have ha : rb.AvailableRead = rb.writePos - rb.readPos := rfl
        refine ⟨?_, ?_⟩
        · show rb.readPos + min M rb.AvailableRead ≤ rb.writePos
          omega
        · show rb.writePos - (rb.readPos + min M rb.AvailableRead) ≤ rb.size
          omega
  · intro rb hinv
    rw [ReadSlices_state rb]
    exact hinv
  · intro rb hinv
    rw [PeekContiguous_state rb]
    exact hinv
  · intro rb k hinv
    obtain ⟨hle, hocc⟩ := hinv
    by_cases h0 : k = 0
    · subst h0
      simp only [Consume]
      exact ⟨hle, hocc⟩
    · by_cases hgt : k > rb.AvailableRead
      · rw [Consume_err rb k (by omega)]
        exact ⟨hle, hocc⟩
      · rw [Consume_ok rb k (by omega)]
        have ha : rb.AvailableRead = rb.writePos - rb.readPos := rfl
        exact ⟨by show rb.readPos + k ≤ rb.writePos; omega,
          by show rb.writePos - (rb.readPos + k) ≤ rb.size; omega⟩
  · intro rb
    exact ⟨Nat.le_refl 0, Nat.zero_le _⟩

open RingBuffer in
theorem c4_cursor_invariant_witness :
    CursorInv ((New 4).Write [1, 2]).1 :=
  c4_cursor_invariant.2.1 (New 4) [1, 2] (by decide)

open RingBuffer in
/-- C5: on any well-formed state, the slices returned by `ReadSlices`
concatenated in order equal the bytes a `Read` of the returned total would
copy out of the same state, and `Consume` of that total leaves the buffer
in exactly the state that `Read` would have left it in (and succeeds). -/
theorem c5_zero_copy_equiv (rb : RingBuffer) (h : Wf rb) :
    ((rb.ReadSlices).2.1.getD [] ++ (rb.ReadSlices).2.2.1.getD []) =
      (rb.Read ((rb.ReadSlices).2.2.2)).2.1 ∧
    (rb.Consume ((rb.ReadSlices).2.2.2)).1 = (rb.Read ((rb.ReadSlices).2.2.2)).1 ∧
    (rb.Consume ((rb.ReadSlices).2.2.2)).2 = none := by
  rw [ReadSlices_total rb]
  refine ⟨?_, ?_, ?_⟩
  · rw [ReadSlices_concat rb h, Read_eq rb _ h]
    show unread rb = (unread rb).take (min rb.AvailableRead rb.AvailableRead)
    rw [Nat.min_self, ← unread_length rb, List.take_length]
  · rw [Consume_ok rb _ (Nat.le_refl _), Read_eq rb _ h]
    show ({ rb with readPos := rb.readPos + rb.AvailableRead } : RingBuffer) =
      { rb with readPos := rb.readPos + min rb.AvailableRead rb.AvailableRead }
    rw [Nat.min_self]
  · rw [Consume_ok rb _ (Nat.le_refl _)]

open RingBuffer in
theorem c5_zero_copy_equiv_witness :
    (((((New 4).Write [1, 2, 3]).1.Read 2).1.Write [4, 5, 6]).1.Consume
        ((((((New 4).Write [1, 2, 3]).1.Read 2).1.Write [4, 5, 6]).1.ReadSlices).2.2.2)).1 =
      (((((New 4).Write [1, 2, 3]).1.Read 2).1.Write [4, 5, 6]).1.Read
        ((((((New 4).Write [1, 2, 3]).1.Read 2).1.Write [4, 5, 6]).1.ReadSlices).2.2.2)).1 :=
  (c5_zero_copy_equiv ((((New 4).Write [1, 2, 3]).1.Read 2).1.Write [4, 5, 6]).1
    ⟨⟨2, by decide⟩, by decide, by decide, by decide, by decide⟩).2.1

open RingBuffer in
/-- C6 (amended): for every requested size up to `2 ^ 63`, the constructed
buffer's `Size` is the smallest power of two at least the request, a
request of 0 yielding capacity 1.  (For requests above `2 ^ 63` the Go
`uint64` computation overflows and `Size` is 0 — see the
counterexample.) -/
theorem c6_capacity_rounding (n : Nat) (h : n ≤ 2 ^ 63) :
    isLeastPow2 n ((New n).Size) ∧ (New 0).Size = 1 := by
  constructor
  · show isLeastPow2 n (nextPowerOf2 n)
    exact nextPowerOf2_least n h
  · rfl

open RingBuffer in
theorem c6_capacity_rounding_witness :
    isLeastPow2 100 ((New 100).Size) ∧ (New 0).Size = 1 :=
  c6_capacity_rounding 100 (by decide)

open RingBuffer in
/-- C6 counterexample: at the request `2 ^ 63 + 1` the claim "`Size` is the
smallest power of two greater than or equal to the request" fails: the
`uint64` increment in `nextPowerOf2` overflows and the constructed `Size`
is 0, which is not even at least the request. -/
theorem c6_counterexample :
    (New (2 ^ 63 + 1)).Size = 0 ∧ ¬ (2 ^ 63 + 1 ≤ (New (2 ^ 63 + 1)).Size) := by
  decide

open RingBuffer in
/-- C7 (amended): `ReadSlices` on a well-formed state returns no views and
total 0 when nothing is available; when data is available, the second
view is non-nil exactly when the unread region reaches the physical end
of storage (`start + available ≥ size`), and that view is non-empty
exactly when the region crosses the end (`start + available > size`) —
when the region ends exactly at the physical end, the second view is
present but empty.  (The original claim, presence exactly on crossing,
fails at the boundary — see the counterexample.) -/
theorem c7_readslices_second (rb : RingBuffer) (h : Wf rb) :
    (rb.AvailableRead = 0 → rb.ReadSlices = (rb, none, none, 0)) ∧
    (0 < rb.AvailableRead →
      (((rb.ReadSlices).2.2.1 ≠ none) ↔
        rb.size ≤ rb.readPos % rb.size + rb.AvailableRead) ∧
      (∀ s, (rb.ReadSlices).2.2.1 = some s →
        (s ≠ [] ↔ rb.size < rb.readPos % rb.size + rb.AvailableRead))) := by
  refine ⟨ReadSlices_empty rb, ?_⟩
  intro hpos
  have hne : rb.AvailableRead ≠ 0 := by omega
  have havsz : rb.AvailableRead ≤ rb.size := by
    have := h.occ
    have ha : rb.AvailableRead = rb.writePos - rb.readPos := rfl
    omega
  by_cases hc : rb.readPos % rb.size + rb.AvailableRead < rb.size
  · rw [ReadSlices_contig rb h hne hc]
    constructor
    · show ((none : Option (List Nat)) ≠ none) ↔ _
      simp
      omega
    · intro s hs
      simp at hs
  · have hcge : rb.size ≤ rb.readPos % rb.size + rb.AvailableRead := by omega
    rw [ReadSlices_wrap rb h hne hcge]
    constructor
    · exact ⟨fun _ => hcge, fun _ => by simp⟩
    · intro s hs
      have hs' : s = rb.buffer.take (rb.readPos % rb.size + rb.AvailableRead - rb.size) := by
        injection hs with hs'
        exact hs'.symm
      subst hs'
      rw [← List.length_pos, List.length_take, h.len_eq]
      have hmlt : rb.readPos % rb.size < rb.size := Nat.mod_lt _ (size_pos rb h)
      omega

open RingBuffer in
theorem c7_readslices_second_witness :
    (((((New 4).Write [1, 2, 3]).1.Read 2).1.Write [4, 5, 6]).1.ReadSlices).2.2.1 ≠ none :=
  ((c7_readslices_second ((((New 4).Write [1, 2, 3]).1.Read 2).1.Write [4, 5, 6]).1
    ⟨⟨2, by decide⟩, by decide, by decide, by decide, by decide⟩).2
    (by decide)).1.mpr (by decide)

open RingBuffer in
/-- C7 counterexample: after writing 4 bytes into a fresh 4-byte buffer the
unread region is `[0, 4)` — contiguous, not wrapping past the physical end
(`start + available = size`) — yet `ReadSlices` returns a present (non-nil
but empty) second view, refuting "a second view only when the available
data wraps past the end of storage". -/
theorem c7_counterexample :
    (((New 4).Write [10, 11, 12, 13]).1.ReadSlices).2.2.1 = some [] ∧
    ((New 4).Write [10, 11, 12, 13]).1.readPos % ((New 4).Write [10, 11, 12, 13]).1.size +
        ((New 4).Write [10, 11, 12, 13]).1.AvailableRead =
      ((New 4).Write [10, 11, 12, 13]).1.size := by
  decide

/-- C9 (amended): relative to the lock-free core, the single-threaded
variant's `Read` is all-or-nothing: on states with the same unread
content and a positive request `n` that fits the destination, the variant
succeeds exactly when `n` is at most its stored byte count, whereas the
core's `Read` succeeds exactly when at least one byte is available; when
the variant succeeds it returns exactly the bytes the core's `Read` of
the same length returns.  (The original claim — that the variant's `Read`
succeeds exactly when the core's would — fails whenever
`0 < available < n`; see the counterexample.) -/
theorem c9_st_refinement (st : STRingBuffer) (rb : RingBuffer) (n dstLen : Nat)
    (hst : STRingBuffer.WfST st) (h : RingBuffer.Wf rb)
    (habs : STRingBuffer.unreadST st = RingBuffer.unread rb)
    (hn : 0 < n) (hdst : n ≤ dstLen) :
    ((st.Read n dstLen).2.2.2 = none ↔ n ≤ st.size) ∧
    ((rb.Read n).2.2.2 = none ↔ 0 < rb.AvailableRead) ∧
    (n ≤ st.size → (st.Read n dstLen).2.1 = (rb.Read n).2.1) := by
  have hlen1 : (STRingBuffer.unreadST st).length = st.size := by
    simp [STRingBuffer.unreadST]
  have hlen2 := RingBuffer.unread_length rb
  rw [habs] at hlen1
  have hsizes : st.size = rb.AvailableRead := by omega
  refine ⟨?_, ?_, ?_⟩
  · constructor
    · intro hnone
      by_contra hcon
      push_neg at hcon
      rw [STRingBuffer.STRead_err st n dstLen hdst hcon] at hnone
      simp at hnone
    · intro hle
      rw [STRingBuffer.STRead_ok st n dstLen hst hle hdst]
  · rw [RingBuffer.Read_eq rb n h]
    by_cases hav : rb.AvailableRead = 0
    · show (if 0 < n ∧ rb.AvailableRead = 0 then some RBError.insufficientData
        else none) = none ↔ 0 < rb.AvailableRead
      rw [if_pos ⟨hn, hav⟩]
      simp [hav]
    · show (if 0 < n ∧ rb.AvailableRead = 0 then some RBError.insufficientData
        else none) = none ↔ 0 < rb.AvailableRead
      rw [if_neg (fun hc => hav hc.2)]
      simp [Nat.pos_of_ne_zero hav]
  · intro hle
    rw [STRingBuffer.STRead_ok st n dstLen hst hle hdst, RingBuffer.Read_eq rb n h]
    show (STRingBuffer.unreadST st).take n =
      (RingBuffer.unread rb).take (min n rb.AvailableRead)
    rw [habs]
    congr 1
    omega

theorem c9_st_refinement_witness :
    (STRingBuffer.Read ⟨[7, 0, 0, 0], 0, 1, 1⟩ 1 4).2.1 =
      (RingBuffer.Read ⟨[7, 0, 0, 0], 4, 3, 1, 0⟩ 1).2.1 :=
  (c9_st_refinement ⟨[7, 0, 0, 0], 0, 1, 1⟩ ⟨[7, 0, 0, 0], 4, 3, 1, 0⟩ 1 4
    ⟨by decide, by decide⟩
    ⟨⟨2, by decide⟩, by decide, by decide, by decide, by decide⟩
    (by decide) (by decide) (by decide)).2.2 (by decide)

/-- C9 counterexample: a single-threaded buffer and a core buffer holding
the same single unread byte `7` out of capacity 4; asked for 2 bytes, the
single-threaded variant's `Read` fails with its insufficient-data error
while the core's `Read` succeeds, returning the one available byte —
refuting "the variant's `Read` succeeds exactly when the core's `Read` of
the same length would". -/
theorem c9_counterexample :
    STRingBuffer.unreadST ⟨[7, 0, 0, 0], 0, 1, 1⟩ =
      RingBuffer.unread ⟨[7, 0, 0, 0], 4, 3, 1, 0⟩ ∧
    (STRingBuffer.Read ⟨[7, 0, 0, 0], 0, 1, 1⟩ 2 4).2.2.2 =
      some STError.insufficientData ∧
    (RingBuffer.Read ⟨[7, 0, 0, 0], 4, 3, 1, 0⟩ 2).2.2.2 = none ∧
    (RingBuffer.Read ⟨[7, 0, 0, 0], 4, 3, 1, 0⟩ 2).2.1 = [7] := by
  decide

open RingBuffer in
/-- C10: `ReadSlices` and `PeekContiguous` leave the entire observable
state unchanged — the returned receiver is the input state, so neither
`writePos`, `readPos`, nor any storage byte moves; consequently repeated
calls return identical results and `AvailableRead` is unchanged. -/
theorem c10_peek_frame (rb : RingBuffer) :
    (rb.ReadSlices).1 = rb ∧
    (rb.PeekContiguous).1 = rb ∧
    ((rb.ReadSlices).1).ReadSlices = rb.ReadSlices ∧
    ((rb.PeekContiguous).1).PeekContiguous = rb.PeekContiguous ∧
    (rb.ReadSlices).1.writePos = rb.writePos ∧
    (rb.ReadSlices).1.readPos = rb.readPos ∧
    (rb.ReadSlices).1.buffer = rb.buffer ∧
    (rb.PeekContiguous).1.writePos = rb.writePos ∧
    (rb.PeekContiguous).1.readPos = rb.readPos ∧
    (rb.PeekContiguous).1.buffer = rb.buffer ∧
    (rb.ReadSlices).1.AvailableRead = rb.AvailableRead ∧
    (rb.PeekContiguous).1.AvailableRead = rb.AvailableRead := by
  have h1 := ReadSlices_state rb
  have h2 := PeekContiguous_state rb
  refine ⟨h1, h2, by rw [h1], by rw [h2], by rw [h1], by rw [h1], by rw [h1],
    by rw [h2], by rw [h2], by rw [h2], by rw [h1], by rw [h2]⟩
